import Mathlib

/-!
Shallow embedding of the stability-gated state synchronization engine of
obs-router/server.mjs: the per-key debounce state machine driven by the poll
loop, the committed state store, the patch/snapshot broadcast decision, and
the manual override endpoint.

State and candidate mappings are modelled as functions from keys (String) to
optional entries, matching JavaScript object lookup (absent key reads as
undefined, i.e. `none`).  A decoded CSV mapping is an association list of
key/raw-value pairs (the order of `Object.entries`); its keys are unique
because it comes from a JavaScript object.  A failed upstream fetch is the
`none` outcome of `pollOnce` (the `fetch` call threw or the response status
was not ok, both raise before any mutation in `loop`).  Timestamps produced
by `nowIso()` are opaque strings supplied as inputs.
-/

namespace ObsRouter

/-- A staged candidate entry for one key: the object stored in
`candidate[key] = { value, count }`. -/
structure Cand where
  value : String
  count : Nat
deriving Repr, DecidableEq

/-- JavaScript object model: a committed-state mapping, `state[k]` reads as
`none` when the key is absent (undefined). -/
abbrev StateMap := String → Option String

/-- JavaScript object model for the candidate mapping. -/
abbrev CandMap := String → Option Cand

/-- Object property assignment `m[k] = v`. -/
def setk {α : Type} (m : String → Option α) (k : String) (v : α) :
    String → Option α :=
  fun k2 => if k2 = k then some v else m k2

/-- Object property removal `delete m[k]`. -/
def delk {α : Type} (m : String → Option α) (k : String) :
    String → Option α :=
  fun k2 => if k2 = k then none else m k2

/-- Characters removed by JavaScript `String.prototype.trim` (the white-space
set, restricted to the characters that can appear here). -/
def jsWhitespaceChar (c : Char) : Bool :=
  c = ' ' || c = '\t' || c = '\n' || c = '\r' || c = '\x0b' || c = '\x0c' ||
    c = '\u00A0' || c = '\uFEFF'

/-- JavaScript `raw.trim()`: strip leading and trailing whitespace. -/
def jsTrim (s : String) : String :=
  String.mk (((s.toList.dropWhile jsWhitespaceChar).reverse.dropWhile
    jsWhitespaceChar).reverse)

/-- Embedding of `commitChange(key, value)`: returns the updated state
mapping together with the boolean the function returns (whether the
committed value actually changed).  `prev === value` compares the possibly
undefined `state[key]` with the string `value`; an absent key is never
strictly equal to a string. -/
def commitChange (st : StateMap) (key value : String) : StateMap × Bool :=
  if st key = some value then (st, false)
  else (setk st key value, true)

/-- The candidate record written by the stability logic of `loop` for one
observed key: `{ value: next, count: 1 }` when there is no candidate or the
candidate holds a different value, otherwise the old candidate with
`count += 1`. -/
def stagedCand (c : Option Cand) (next : String) : Cand :=
  match c with
  | some c0 => if c0.value = next then ⟨next, c0.count + 1⟩ else ⟨next, 1⟩
  | none => ⟨next, 1⟩

/-- Accumulator for one pass of the `for (const [key, raw] of
Object.entries(kv))` loop body: the state and candidate mappings plus the
`changes` object built up during the cycle (as an association list in
insertion order). -/
structure CycleAcc where
  state : StateMap
  cand : CandMap
  changes : List (String × String)

/-- Embedding of one iteration of the reconciliation loop body
(server.mjs lines 150-172) for entry `(key, raw)`:
trim the raw value; if it equals the committed value, drop any candidate and
continue; otherwise stage or advance the candidate, and when its count has
reached `REQUIRE_STABLE_READS` (here `T`) delete the candidate and commit,
recording the key in `changes` when `commitChange` reports a change. -/
def processEntry (T : Nat) (acc : CycleAcc) (key raw : String) : CycleAcc :=
  let next := jsTrim raw
  if acc.state key = some next then
    { acc with cand := delk acc.cand key }
  else
    let staged := stagedCand (acc.cand key) next
    if T ≤ staged.count then
      let r := commitChange acc.state key next
      { state := r.1
        cand := delk (setk acc.cand key staged) key
        changes := if r.2 then acc.changes ++ [(key, next)] else acc.changes }
    else
      { acc with cand := setk acc.cand key staged }

/-- The whole `Reconciling` phase of a successful cycle: fold the loop body
over the decoded entries, starting from empty `changes`. -/
def reconcile (T : Nat) (st : StateMap) (cand : CandMap)
    (kv : List (String × String)) : CycleAcc :=
  kv.foldl (fun acc e => processEntry T acc e.1 e.2) ⟨st, cand, []⟩

/-- A `patch` wire message: `op: "patch"` with its timestamp and sparse
changes mapping. -/
structure Patch where
  ts : String
  changes : List (String × String)
deriving Repr, DecidableEq

/-- Outcome of one run of `loop` (minus the self-rescheduling `finally`):
the mappings, the `lastFetchOkAt` marker, and the patch broadcast if one was
sent. -/
structure CycleResult where
  state : StateMap
  cand : CandMap
  lastFetchOkAt : Option String
  sent : Option Patch

/-- Embedding of one poll cycle (server.mjs lines 142-191).  `fetched` is the
outcome of `pollOnce()`: `none` when the fetch threw or returned a non-ok
status (the `catch` arm: nothing is mutated, nothing broadcast), `some kv`
the decoded mapping otherwise.  On success `lastFetchOkAt` is set to the
current time, the entries are reconciled, and a single patch is broadcast
exactly when the `changes` object is non-empty. -/
def runCycle (T : Nat) (st : StateMap) (cand : CandMap)
    (lastOk : Option String) (now : String)
    (fetched : Option (List (String × String))) : CycleResult :=
  match fetched with
  | none => ⟨st, cand, lastOk, none⟩
  | some kv =>
    let acc := reconcile T st cand kv
    ⟨acc.state, acc.cand, some now,
      if acc.changes = [] then none else some ⟨now, acc.changes⟩⟩

/-- JSON values that can appear in the fields of a `POST /override` request
body (after `express.json()` parsing). -/
inductive JsVal where
  | str (s : String)
  | num (n : Int)
  | jsBool (b : Bool)
  | null
deriving Repr, DecidableEq

/-- JavaScript truthiness of a possibly-missing body field (`undefined` is
`none`): the empty string, zero, `false` and `null` are falsy. -/
def jsTruthy : Option JsVal → Bool
  | none => false
  | some (.str s) => !(s = "")
  | some (.num n) => !(n = 0)
  | some (.jsBool b) => b
  | some .null => false

/-- The `typeof key === "string"` test. -/
def jsIsString : Option JsVal → Bool
  | some (.str _) => true
  | _ => false

/-- The string held by a field known to be a string (defaulting otherwise;
only used under `jsIsString`). -/
def jsKeyString : Option JsVal → String
  | some (.str s) => s
  | _ => ""

/-- The coercion `(value ?? "").toString()`: `undefined` and `null` become
the empty string, strings pass through, numbers and booleans print. -/
def coerceValue : Option JsVal → String
  | none => ""
  | some .null => ""
  | some (.str s) => s
  | some (.num n) => toString n
  | some (.jsBool b) => if b then "true" else "false"

/-- Outcome of the `POST /override` handler: HTTP status, the mappings after
the request, the patch broadcast if one was sent, and the `key`/`value`
fields of a 200 response body. -/
structure OverrideResult where
  status : Nat
  state : StateMap
  cand : CandMap
  sent : Option Patch
  resp : Option (String × String)

/-- Embedding of `app.post("/override", ...)` (server.mjs lines 100-117):
reject with 400 when `!key || typeof key !== "string"`; otherwise coerce the
value to a string, and when it differs from the committed value (strict
comparison against the possibly undefined `state[key]`) assign it and
broadcast a single-key patch.  The candidate mapping is never touched.  The
response reports `state[key]` after the handler, which is the coerced value
in both branches. -/
def overrideHandler (st : StateMap) (cand : CandMap)
    (key value : Option JsVal) (now : String) : OverrideResult :=
  if !(jsTruthy key) || !(jsIsString key) then
    ⟨400, st, cand, none, none⟩
  else
    let k := jsKeyString key
    let v := coerceValue value
    if st k = some v then
      ⟨200, st, cand, none, some (k, v)⟩
    else
      ⟨200, setk st k v, cand, some ⟨now, [(k, v)]⟩, some (k, v)⟩

/-- What one poll cycle amounts to for a single fixed key: the fetch failed,
or it succeeded and the key was absent from the decoded mapping, or it
succeeded and the key was decoded with a raw value. -/
inductive Obs where
  | failed
  | absent
  | seen (raw : String)
deriving Repr, DecidableEq

/-- The slice of the mutable server state that concerns one key: its
committed value and its staged candidate. -/
structure KeyCfg where
  st : Option String
  cand : Option Cand
deriving Repr, DecidableEq

/-- First-match association-list lookup; on mappings with unique keys this
is exactly JavaScript property lookup `kv[k]`. -/
def lookupKey : List (String × String) → String → Option String
  | [], _ => none
  | e :: rest, k => if e.1 = k then some e.2 else lookupKey rest k

/-- The observation a cycle outcome makes for key `k`. -/
def obsOf (k : String) : Option (List (String × String)) → Obs
  | none => .failed
  | some kv =>
    match lookupKey kv k with
    | some raw => .seen raw
    | none => .absent

/-- One poll cycle viewed from a single key: the projection of the loop body
to that key.  A failed cycle and a cycle not decoding the key leave the
slice unchanged; a decoded observation runs the stability logic.  The second
component is the value committed for the key this cycle, if any. -/
def keyStep (T : Nat) (cfg : KeyCfg) : Obs → KeyCfg × Option String
  | .failed => (cfg, none)
  | .absent => (cfg, none)
  | .seen raw =>
    let next := jsTrim raw
    if cfg.st = some next then (⟨cfg.st, none⟩, none)
    else
      let staged := stagedCand cfg.cand next
      if T ≤ staged.count then
        if cfg.st = some next then (⟨cfg.st, none⟩, none)
        else (⟨some next, none⟩, some next)
      else (⟨cfg.st, some staged⟩, none)

/-- Run a sequence of per-key observations, collecting the committed values
in order. -/
def runKey (T : Nat) (cfg : KeyCfg) : List Obs → KeyCfg × List String
  | [] => (cfg, [])
  | o :: rest =>
    let s := keyStep T cfg o
    let r := runKey T s.1 rest
    (r.1, s.2.toList ++ r.2)

/-- The trimmed values a key was actually decoded to along a sequence of
observations (failed cycles and absent cycles contribute nothing). -/
def seenVals : List Obs → List String :=
  List.filterMap fun o =>
    match o with
    | .seen raw => some (jsTrim raw)
    | _ => none

/-- The trimmed values decoded for key `k` along a sequence of cycle
outcomes. -/
def seenValsFor (k : String)
    (fs : List (Option (List (String × String)))) : List String :=
  seenVals (fs.map (obsOf k))

/-- Run a sequence of poll cycles (the self-rescheduling `loop`), tracking
the state and candidate mappings.  `lastFetchOkAt` and the timestamps do not
feed back into the mappings, so they are irrelevant here. -/
def runCycles (T : Nat) (st : StateMap) (cand : CandMap) :
    List (Option (List (String × String))) → StateMap × CandMap
  | [] => (st, cand)
  | f :: rest =>
    let r := runCycle T st cand none "" f
    runCycles T r.state r.cand rest

/-- The data-model invariant claimed by the spec: a key's candidate entry
never stages the value that is already committed for that key. -/
def stateCandInv (st : StateMap) (cand : CandMap) : Prop :=
  ∀ k c, cand k = some c → st k ≠ some c.value

/-- Invariant tying a key's candidate entry to the observation history `vs`
(the trimmed values decoded for the key so far): a live candidate has been
observed exactly its `count` times in a row, the count is at least one and
still below the threshold. -/
def candTrace (T : Nat) (vs : List String) (c : Option Cand) : Prop :=
  match c with
  | none => True
  | some c0 => 1 ≤ c0.count ∧ c0.count < T ∧
      ∃ pre, vs = pre ++ List.replicate c0.count c0.value

/-- The entries of a changes object that concern one key. -/
def changesFor (k : String) (chs : List (String × String)) :
    List (String × String) :=
  chs.filter fun e => e.1 = k

/-- Empty committed state, as at server start. -/
def emptySt : StateMap := fun _ => none

/-- Empty candidate mapping, as at server start. -/
def emptyCand : CandMap := fun _ => none

/-- A small concrete committed state used to instantiate theorems. -/
def demoSt : StateMap := fun k => if k = "a" then some "x" else none

/-- A small concrete candidate mapping used to instantiate theorems. -/
def demoCand : CandMap := fun k => if k = "b" then some ⟨"y", 1⟩ else none

/-- The server state reached by staging candidate a=x for one cycle (T = 2,
so no commit yet) and then committing a=x through the override endpoint. -/
def overrideAfterStage : OverrideResult :=
  overrideHandler
    (runCycle 2 emptySt emptyCand none "t0" (some [("a", "x")])).state
    (runCycle 2 emptySt emptyCand none "t0" (some [("a", "x")])).cand
    (some (JsVal.str "a")) (some (JsVal.str "x")) "t1"

theorem setk_self {α : Type} (m : String → Option α) (k : String) (v : α) :
    setk m k v k = some v := by
  simp [setk]

theorem setk_other {α : Type} (m : String → Option α) (k k2 : String) (v : α)
    (h : k2 ≠ k) : setk m k v k2 = m k2 := by
  simp [setk, h]

theorem delk_self {α : Type} (m : String → Option α) (k : String) :
    delk m k k = none := by
  simp [delk]

theorem delk_other {α : Type} (m : String → Option α) (k k2 : String)
    (h : k2 ≠ k) : delk m k k2 = m k2 := by
  simp [delk, h]

theorem stagedCand_value (c : Option Cand) (next : String) :
    (stagedCand c next).value = next := by
  cases c with
  | none => rfl
  | some c0 =>
    by_cases h : c0.value = next <;> simp [stagedCand, h]

theorem stagedCand_count_pos (c : Option Cand) (next : String) :
    1 ≤ (stagedCand c next).count := by
  cases c with
  | none => exact Nat.le_refl 1
  | some c0 =>
    by_cases h : c0.value = next <;> simp [stagedCand, h]

theorem changesFor_append (k : String) (a b : List (String × String)) :
    changesFor k (a ++ b) = changesFor k a ++ changesFor k b := by
  simp [changesFor, List.filter_append]

theorem changesFor_nil (k : String) : changesFor k [] = [] := rfl

theorem changesFor_single_self (k v : String) :
    changesFor k [(k, v)] = [(k, v)] := by
  simp [changesFor]

theorem changesFor_single_other (k k2 v : String) (h : k ≠ k2) :
    changesFor k2 [(k, v)] = [] := by
  simp [changesFor, h]

theorem mem_changesFor_self (k v : String) (l : List (String × String))
    (h : (k, v) ∈ l) : (k, v) ∈ changesFor k l := by
  simp [changesFor, List.mem_filter, h]

theorem lookupKey_eq_none_of_changesFor (k : String)
    (l : List (String × String)) (h : changesFor k l = []) :
    lookupKey l k = none := by
  induction l with
  | nil => rfl
  | cons e rest ih =>
    by_cases he : e.1 = k
    · exfalso
      have : e ∈ changesFor k (e :: rest) := by
        simp [changesFor, List.mem_filter, he]
      rw [h] at this
      exact List.not_mem_nil e this
    · have hrest : changesFor k rest = [] := by
        have := h
        simp [changesFor, List.filter_cons, he] at this ⊢
        exact this
      simp [lookupKey, he, ih hrest]

theorem lookupKey_none_iff (l : List (String × String)) (k : String) :
    lookupKey l k = none ↔ k ∉ l.map Prod.fst := by
  induction l with
  | nil => simp [lookupKey]
  | cons e rest ih =>
    by_cases he : e.1 = k
    · simp [lookupKey, he]
    · simp [lookupKey, he, ih, Ne.symm he]

theorem commitChange_of_ne (st : StateMap) (key v : String)
    (h : st key ≠ some v) : commitChange st key v = (setk st key v, true) := by
  simp [commitChange, h]

theorem commitChange_of_eq (st : StateMap) (key v : String)
    (h : st key = some v) : commitChange st key v = (st, false) := by
  simp [commitChange, h]

theorem commitChange_other (st : StateMap) (key v k2 : String) (h : k2 ≠ key) :
    (commitChange st key v).1 k2 = st k2 := by
  unfold commitChange
  split
  · rfl
  · exact setk_other _ _ _ _ h

theorem changesFor_selfmap (k : String) (o : Option String) :
    changesFor k (o.toList.map fun v => (k, v)) = o.toList.map fun v => (k, v) := by
  cases o <;> simp [changesFor]

theorem option_toList_map_eq_nil {α β : Type} (o : Option α) (f : α → β)
    (h : o.toList.map f = []) : o = none := by
  cases o with
  | none => rfl
  | some v => simp at h

theorem keyStep_failed (T : Nat) (cfg : KeyCfg) :
    keyStep T cfg Obs.failed = (cfg, none) := rfl

theorem keyStep_absent (T : Nat) (cfg : KeyCfg) :
    keyStep T cfg Obs.absent = (cfg, none) := rfl

/-- A loop iteration for one entry does not touch the slices of other keys:
state, candidate, and the entry's contribution to `changes` are untouched at
any key other than the processed one. -/
theorem processEntry_frame (T : Nat) (acc : CycleAcc) (key raw k2 : String)
    (h : k2 ≠ key) :
    (processEntry T acc key raw).state k2 = acc.state k2 ∧
    (processEntry T acc key raw).cand k2 = acc.cand k2 ∧
    changesFor k2 (processEntry T acc key raw).changes =
      changesFor k2 acc.changes := by
  unfold processEntry
  by_cases h1 : acc.state key = some (jsTrim raw)
  · simp [h1, delk_other _ _ _ h]
  · by_cases h2 : T ≤ (stagedCand (acc.cand key) (jsTrim raw)).count
    · simp [h1, h2, commitChange_of_ne _ _ _ h1,
        delk_other _ _ _ h, setk_other _ _ _ _ h, commitChange_other _ _ _ _ h,
        changesFor_append, changesFor_single_other _ _ _ (Ne.symm h)]
    · simp [h1, h2, setk_other _ _ _ _ h]

/-- A loop iteration for one entry acts on that entry's key exactly as the
single-key step `keyStep` with a `seen` observation, and appends exactly the
committed entry (if any) to `changes`. -/
theorem processEntry_self (T : Nat) (acc : CycleAcc) (key raw : String) :
    (processEntry T acc key raw).state key =
      ((keyStep T ⟨acc.state key, acc.cand key⟩ (.seen raw)).1).st ∧
    (processEntry T acc key raw).cand key =
      ((keyStep T ⟨acc.state key, acc.cand key⟩ (.seen raw)).1).cand ∧
    (processEntry T acc key raw).changes = acc.changes ++
      ((keyStep T ⟨acc.state key, acc.cand key⟩ (.seen raw)).2.toList.map
        fun v => (key, v)) := by
  unfold processEntry keyStep
  by_cases h1 : acc.state key = some (jsTrim raw)
  · simp [h1, delk_self]
  · by_cases h2 : T ≤ (stagedCand (acc.cand key) (jsTrim raw)).count
    · simp [h1, h2, commitChange_of_ne _ _ _ h1, delk_self, setk_self]
    · simp [h1, h2, setk_self]

/-- Projection of the whole reconciliation fold to one key: on a decoded
mapping with unique keys, the fold affects the key exactly as one `keyStep`
with the observation the mapping makes for it. -/
theorem reconcile_foldl_proj (T : Nat) (k : String)
    (kv : List (String × String)) :
    ∀ (acc : CycleAcc),
      (kv.map Prod.fst).Nodup →
      ((kv.foldl (fun a e => processEntry T a e.1 e.2) acc).state k =
        ((keyStep T ⟨acc.state k, acc.cand k⟩ (obsOf k (some kv))).1).st) ∧
      ((kv.foldl (fun a e => processEntry T a e.1 e.2) acc).cand k =
        ((keyStep T ⟨acc.state k, acc.cand k⟩ (obsOf k (some kv))).1).cand) ∧
      (changesFor k
          (kv.foldl (fun a e => processEntry T a e.1 e.2) acc).changes =
        changesFor k acc.changes ++
          ((keyStep T ⟨acc.state k, acc.cand k⟩ (obsOf k (some kv))).2.toList.map
            fun v => (k, v))) := by
  induction kv with
  | nil =>
    intro acc _
    simp [obsOf, lookupKey, keyStep]
  | cons e rest ih =>
    obtain ⟨k1, r1⟩ := e
    intro acc hnd
    rw [List.map_cons] at hnd
    obtain ⟨hnd1, hnd2⟩ := List.nodup_cons.mp hnd
    simp only [List.foldl_cons]
    by_cases hk : k1 = k
    · subst hk
      have hobs : obsOf k1 (some ((k1, r1) :: rest)) = Obs.seen r1 := by
        simp [obsOf, lookupKey]
      have hrestnone : lookupKey rest k1 = none :=
        (lookupKey_none_iff rest k1).mpr hnd1
      have hrest : obsOf k1 (some rest) = Obs.absent := by
        simp [obsOf, hrestnone]
      have ihh := ih (processEntry T acc k1 r1) hnd2
      rw [hrest] at ihh
      simp only [keyStep_absent] at ihh
      simp only [Option.toList_none, List.map_nil, List.append_nil] at ihh
      have hself := processEntry_self T acc k1 r1
      rw [hobs]
      refine ⟨?_, ?_, ?_⟩
      · rw [ihh.1, hself.1]
      · rw [ihh.2.1, hself.2.1]
      · rw [ihh.2.2, hself.2.2, changesFor_append, changesFor_selfmap]
    · have hobs : obsOf k (some ((k1, r1) :: rest)) = obsOf k (some rest) := by
        simp [obsOf, lookupKey, hk]
      have hframe := processEntry_frame T acc k1 r1 k (fun he => hk he.symm)
      have ihh := ih (processEntry T acc k1 r1) hnd2
      rw [hobs, ← hframe.1, ← hframe.2.1, ← hframe.2.2]
      exact ihh

/-- Projection of a successful poll cycle to one key: the state and
candidate slices evolve by `keyStep`, a sent patch stakes out for the key
exactly the entry `keyStep` commits, and when nothing was broadcast the key
committed nothing. -/
theorem runCycle_proj (T : Nat) (st : StateMap) (cand : CandMap)
    (lastOk : Option String) (now : String) (kv : List (String × String))
    (k : String) (hnd : (kv.map Prod.fst).Nodup) :
    (runCycle T st cand lastOk now (some kv)).state k =
      ((keyStep T ⟨st k, cand k⟩ (obsOf k (some kv))).1).st ∧
    (runCycle T st cand lastOk now (some kv)).cand k =
      ((keyStep T ⟨st k, cand k⟩ (obsOf k (some kv))).1).cand ∧
    (∀ p, (runCycle T st cand lastOk now (some kv)).sent = some p →
      changesFor k p.changes =
        (keyStep T ⟨st k, cand k⟩ (obsOf k (some kv))).2.toList.map
          fun v => (k, v)) ∧
    ((runCycle T st cand lastOk now (some kv)).sent = none →
      (keyStep T ⟨st k, cand k⟩ (obsOf k (some kv))).2 = none) := by
  have hproj : (reconcile T st cand kv).state k =
        ((keyStep T ⟨st k, cand k⟩ (obsOf k (some kv))).1).st ∧
      (reconcile T st cand kv).cand k =
        ((keyStep T ⟨st k, cand k⟩ (obsOf k (some kv))).1).cand ∧
      changesFor k (reconcile T st cand kv).changes =
        (keyStep T ⟨st k, cand k⟩ (obsOf k (some kv))).2.toList.map
          fun v => (k, v) := by
    have h0 := reconcile_foldl_proj T k kv ⟨st, cand, []⟩ hnd
    rw [changesFor_nil, List.nil_append] at h0
    exact h0
  refine ⟨hproj.1, hproj.2.1, ?_, ?_⟩
  · intro p hp
    have : (runCycle T st cand lastOk now (some kv)).sent =
        (if (reconcile T st cand kv).changes = [] then none
          else some ⟨now, (reconcile T st cand kv).changes⟩) := rfl
    rw [this] at hp
    by_cases hc : (reconcile T st cand kv).changes = []
    · simp [hc] at hp
    · simp [hc] at hp
      rw [← hp]
      exact hproj.2.2
  · intro hp
    have : (runCycle T st cand lastOk now (some kv)).sent =
        (if (reconcile T st cand kv).changes = [] then none
          else some ⟨now, (reconcile T st cand kv).changes⟩) := rfl
    rw [this] at hp
    by_cases hc : (reconcile T st cand kv).changes = []
    · have hcf : changesFor k (reconcile T st cand kv).changes = [] := by
        rw [hc]; rfl
      have := hproj.2.2
      rw [hcf] at this
      exact option_toList_map_eq_nil _ _ this.symm
    · simp [hc] at hp

/-- Projection of a whole run of poll cycles to one key: the state and
candidate mappings evolve by `runKey` over the observations the cycle
outcomes make for that key. -/
theorem runCycles_proj (T : Nat) (k : String)
    (fs : List (Option (List (String × String)))) :
    ∀ (st : StateMap) (cand : CandMap),
      (∀ kv, some kv ∈ fs → (kv.map Prod.fst).Nodup) →
      ((runCycles T st cand fs).1 k =
        ((runKey T ⟨st k, cand k⟩ (fs.map (obsOf k))).1).st) ∧
      ((runCycles T st cand fs).2 k =
        ((runKey T ⟨st k, cand k⟩ (fs.map (obsOf k))).1).cand) := by
  induction fs with
  | nil =>
    intro st cand _
    exact ⟨rfl, rfl⟩
  | cons f rest ih =>
    intro st cand hnd
    have hndrest : ∀ kv, some kv ∈ rest → (kv.map Prod.fst).Nodup :=
      fun kv hm => hnd kv (List.mem_cons_of_mem _ hm)
    cases f with
    | none =>
      have heq : runCycles T st cand (none :: rest) = runCycles T st cand rest :=
        rfl
      have hobs : obsOf k none = Obs.failed := rfl
      rw [heq, List.map_cons, hobs]
      have hkeys : runKey T ⟨st k, cand k⟩ (Obs.failed :: rest.map (obsOf k)) =
          ((runKey T ⟨st k, cand k⟩ (rest.map (obsOf k))).1,
            (runKey T ⟨st k, cand k⟩ (rest.map (obsOf k))).2) := by
        simp [runKey, keyStep_failed]
      rw [hkeys]
      exact ih st cand hndrest
    | some kv =>
      have hndkv : (kv.map Prod.fst).Nodup := hnd kv (List.mem_cons_self _ _)
      have heq : runCycles T st cand (some kv :: rest) =
          runCycles T (runCycle T st cand none "" (some kv)).state
            (runCycle T st cand none "" (some kv)).cand rest := rfl
      have hstep := runCycle_proj T st cand none "" kv k hndkv
      rw [heq, List.map_cons]
      have hrun : runKey T ⟨st k, cand k⟩
            (obsOf k (some kv) :: rest.map (obsOf k)) =
          ((runKey T ((keyStep T ⟨st k, cand k⟩ (obsOf k (some kv))).1)
              (rest.map (obsOf k))).1,
            (keyStep T ⟨st k, cand k⟩ (obsOf k (some kv))).2.toList ++
            (runKey T ((keyStep T ⟨st k, cand k⟩ (obsOf k (some kv))).1)
              (rest.map (obsOf k))).2) := by
        simp [runKey]
      rw [hrun]
      have ihh := ih (runCycle T st cand none "" (some kv)).state
        (runCycle T st cand none "" (some kv)).cand hndrest
      rw [hstep.1, hstep.2.1] at ihh
      exact ihh

theorem jsTrim_idem_nows (raw : String) : seenVals [Obs.seen raw] = [jsTrim raw] :=
  rfl

theorem candTrace_none (T : Nat) (vs : List String) : candTrace T vs none :=
  trivial

/-- One observation preserves the candidate/history invariant. -/
theorem keyStep_candTrace (T : Nat) (vs : List String) (cfg : KeyCfg)
    (o : Obs) (h : candTrace T vs cfg.cand) :
    candTrace T (vs ++ seenVals [o]) ((keyStep T cfg o).1).cand := by
  cases o with
  | failed => simpa [seenVals, keyStep_failed] using h
  | absent => simpa [seenVals, keyStep_absent] using h
  | seen raw =>
    unfold keyStep
    by_cases h1 : cfg.st = some (jsTrim raw)
    · simp [h1, candTrace]
    · by_cases h2 : T ≤ (stagedCand cfg.cand (jsTrim raw)).count
      · simp [h1, h2, candTrace]
      · simp only [h1, h2, if_false, if_neg]
        have hcount : 1 ≤ (stagedCand cfg.cand (jsTrim raw)).count :=
          stagedCand_count_pos _ _
        have hlt : (stagedCand cfg.cand (jsTrim raw)).count < T :=
          Nat.lt_of_not_le h2
        refine ⟨hcount, hlt, ?_⟩
        rw [stagedCand_value]
        cases hc : cfg.cand with
        | none =>
          refine ⟨vs, ?_⟩
          simp [seenVals, stagedCand, hc]
        | some c0 =>
          by_cases hval : c0.value = jsTrim raw
          · rw [hc] at h
            obtain ⟨_, _, pre, hpre⟩ := h
            refine ⟨pre, ?_⟩
            have : stagedCand (some c0) (jsTrim raw) =
                ⟨jsTrim raw, c0.count + 1⟩ := by
              simp [stagedCand, hval]
            rw [this]
            simp only [seenVals, List.filterMap]
            rw [hpre, ← hval]
            rw [List.replicate_succ']
            simp
          · refine ⟨vs, ?_⟩
            have : stagedCand (some c0) (jsTrim raw) = ⟨jsTrim raw, 1⟩ := by
              simp [stagedCand, hval]
            rw [this]
            simp [seenVals]

theorem seenVals_cons (o : Obs) (tr : List Obs) :
    seenVals (o :: tr) = seenVals [o] ++ seenVals tr := by
  cases o <;> simp [seenVals]

/-- A whole run of observations preserves the candidate/history
invariant. -/
theorem runKey_candTrace (T : Nat) (tr : List Obs) :
    ∀ (vs : List String) (cfg : KeyCfg), candTrace T vs cfg.cand →
      candTrace T (vs ++ seenVals tr) ((runKey T cfg tr).1).cand := by
  induction tr with
  | nil =>
    intro vs cfg h
    simpa [runKey, seenVals] using h
  | cons o rest ih =>
    intro vs cfg h
    have hstep := keyStep_candTrace T vs cfg o h
    have hrest := ih (vs ++ seenVals [o]) ((keyStep T cfg o).1) hstep
    rw [seenVals_cons, ← List.append_assoc]
    simpa [runKey] using hrest

/-- When a `seen` observation commits, the history ends in exactly `T`
consecutive occurrences of the committed value, which differs from the value
committed before the step. -/
theorem keyStep_commit_trace (T : Nat) (hT : 1 ≤ T) (vs : List String)
    (cfg : KeyCfg) (raw v : String) (h : candTrace T vs cfg.cand)
    (hc : (keyStep T cfg (Obs.seen raw)).2 = some v) :
    cfg.st ≠ some v ∧ v = jsTrim raw ∧
      ∃ pre, vs ++ [jsTrim raw] = pre ++ List.replicate T v := by
  unfold keyStep at hc
  by_cases h1 : cfg.st = some (jsTrim raw)
  · simp [h1] at hc
  · by_cases h2 : T ≤ (stagedCand cfg.cand (jsTrim raw)).count
    · simp only [h1, h2, if_true, if_false, if_neg, if_pos] at hc
      have hv : v = jsTrim raw := by
        simp at hc
        exact hc.symm
      subst hv
      refine ⟨h1, rfl, ?_⟩
      cases hcand : cfg.cand with
      | none =>
        have hcnt : (stagedCand none (jsTrim raw)).count = 1 := rfl
        rw [hcand, hcnt] at h2
        have hT1 : T = 1 := Nat.le_antisymm h2 hT
        refine ⟨vs, ?_⟩
        rw [hT1]
        simp
      | some c0 =>
        rw [hcand] at h
        obtain ⟨hge, hlt, pre, hpre⟩ := h
        by_cases hval : c0.value = jsTrim raw
        · have hcnt : (stagedCand (some c0) (jsTrim raw)).count = c0.count + 1 := by
            simp [stagedCand, hval]
          rw [hcand, hcnt] at h2
          have hTeq : T = c0.count + 1 := Nat.le_antisymm h2 hlt
          refine ⟨pre, ?_⟩
          rw [hpre, hTeq, hval, List.replicate_succ']
          simp
        · have hcnt : (stagedCand (some c0) (jsTrim raw)).count = 1 := by
            simp [stagedCand, hval]
          rw [hcand, hcnt] at h2
          have hT1 : T = 1 := Nat.le_antisymm h2 hT
          refine ⟨vs, ?_⟩
          rw [hT1]
          simp
    · simp [h1, h2] at hc

theorem processEntry_eq_case (T : Nat) (acc : CycleAcc) (key raw : String)
    (h1 : acc.state key = some (jsTrim raw)) :
    processEntry T acc key raw = { acc with cand := delk acc.cand key } := by
  simp [processEntry, h1]

theorem processEntry_stage_case (T : Nat) (acc : CycleAcc) (key raw : String)
    (h1 : acc.state key ≠ some (jsTrim raw))
    (h2 : ¬ T ≤ (stagedCand (acc.cand key) (jsTrim raw)).count) :
    processEntry T acc key raw =
      { acc with
          cand := setk acc.cand key (stagedCand (acc.cand key) (jsTrim raw)) } := by
  simp [processEntry, h1, h2]

theorem processEntry_commit_case (T : Nat) (acc : CycleAcc) (key raw : String)
    (h1 : acc.state key ≠ some (jsTrim raw))
    (h2 : T ≤ (stagedCand (acc.cand key) (jsTrim raw)).count) :
    processEntry T acc key raw =
      { state := setk acc.state key (jsTrim raw)
        cand := delk (setk acc.cand key
          (stagedCand (acc.cand key) (jsTrim raw))) key
        changes := acc.changes ++ [(key, jsTrim raw)] } := by
  simp [processEntry, h1, h2, commitChange_of_ne _ _ _ h1]

theorem keyStep_seen_eq (T : Nat) (cfg : KeyCfg) (raw : String)
    (h1 : cfg.st = some (jsTrim raw)) :
    keyStep T cfg (Obs.seen raw) = (⟨cfg.st, none⟩, none) := by
  simp [keyStep, h1]

theorem keyStep_seen_stage (T : Nat) (cfg : KeyCfg) (raw : String)
    (h1 : cfg.st ≠ some (jsTrim raw))
    (h2 : ¬ T ≤ (stagedCand cfg.cand (jsTrim raw)).count) :
    keyStep T cfg (Obs.seen raw) =
      (⟨cfg.st, some (stagedCand cfg.cand (jsTrim raw))⟩, none) := by
  simp [keyStep, h1, h2]

theorem keyStep_seen_commit (T : Nat) (cfg : KeyCfg) (raw : String)
    (h1 : cfg.st ≠ some (jsTrim raw))
    (h2 : T ≤ (stagedCand cfg.cand (jsTrim raw)).count) :
    keyStep T cfg (Obs.seen raw) =
      (⟨some (jsTrim raw), none⟩, some (jsTrim raw)) := by
  simp [keyStep, h1, h2]

/-- One loop iteration preserves the candidate-never-equals-state
invariant. -/
theorem processEntry_inv (T : Nat) (acc : CycleAcc) (key raw : String)
    (h : stateCandInv acc.state acc.cand) :
    stateCandInv (processEntry T acc key raw).state
      (processEntry T acc key raw).cand := by
  by_cases h1 : acc.state key = some (jsTrim raw)
  · rw [processEntry_eq_case T acc key raw h1]
    intro k c hk
    dsimp only at hk ⊢
    by_cases hkk : k = key
    · subst hkk
      rw [delk_self] at hk
      cases hk
    · rw [delk_other _ _ _ hkk] at hk
      exact h k c hk
  · by_cases h2 : T ≤ (stagedCand (acc.cand key) (jsTrim raw)).count
    · rw [processEntry_commit_case T acc key raw h1 h2]
      intro k c hk
      dsimp only at hk ⊢
      by_cases hkk : k = key
      · subst hkk
        rw [delk_self] at hk
        cases hk
      · rw [delk_other _ _ _ hkk, setk_other _ _ _ _ hkk] at hk
        rw [setk_other _ _ _ _ hkk]
        exact h k c hk
    · rw [processEntry_stage_case T acc key raw h1 h2]
      intro k c hk
      dsimp only at hk ⊢
      by_cases hkk : k = key
      · subst hkk
        rw [setk_self] at hk
        have hc : c = stagedCand (acc.cand k) (jsTrim raw) :=
          (Option.some.inj hk).symm
        rw [hc, stagedCand_value]
        exact h1
      · rw [setk_other _ _ _ _ hkk] at hk
        exact h k c hk

/-- The whole reconciliation fold preserves the invariant. -/
theorem reconcile_inv (T : Nat) (st : StateMap) (cand : CandMap)
    (kv : List (String × String)) (h : stateCandInv st cand) :
    stateCandInv (reconcile T st cand kv).state (reconcile T st cand kv).cand := by
  suffices hgen : ∀ (l : List (String × String)) (acc : CycleAcc),
      stateCandInv acc.state acc.cand →
      stateCandInv (l.foldl (fun a e => processEntry T a e.1 e.2) acc).state
        (l.foldl (fun a e => processEntry T a e.1 e.2) acc).cand by
    exact hgen kv ⟨st, cand, []⟩ h
  intro l
  induction l with
  | nil => exact fun acc ha => ha
  | cons e rest ih =>
    intro acc ha
    exact ih _ (processEntry_inv T acc e.1 e.2 ha)

/-- Repeating an observation of the already-committed value is inert: the
state keeps its value, the candidate is discarded on the first repetition
(whatever progress it had), and no cycle commits anything for the key. -/
theorem runKey_noop (T : Nat) (v raw : String) (hraw : jsTrim raw = v) :
    ∀ (n : Nat) (c0 : Option Cand),
      runKey T ⟨some v, c0⟩ (List.replicate n (Obs.seen raw)) =
        (⟨some v, if n = 0 then c0 else none⟩, []) := by
  intro n
  induction n with
  | zero => intro c0; simp [runKey]
  | succ m ih =>
    intro c0
    have h1 : (⟨some v, c0⟩ : KeyCfg).st = some (jsTrim raw) := by
      rw [hraw]
    have hstep : keyStep T ⟨some v, c0⟩ (Obs.seen raw) =
        (⟨some v, none⟩, none) := keyStep_seen_eq T ⟨some v, c0⟩ raw h1
    rw [List.replicate_succ]
    simp only [runKey, hstep]
    rw [ih none]
    simp

/-- Climbing the counter: starting below the threshold with a matching
candidate and observing the same value enough times commits it exactly at
the threshold, after which further observations are inert. -/
theorem runKey_climb (T : Nat) (v raw : String) (hraw : jsTrim raw = v)
    (st0 : Option String) (hst : st0 ≠ some v) :
    ∀ (m n : Nat), n + m = T → 1 ≤ n →
      runKey T ⟨st0, some ⟨v, n⟩⟩ (List.replicate m (Obs.seen raw)) =
        if m = 0 then (⟨st0, some ⟨v, n⟩⟩, [])
        else (⟨some v, none⟩, [v]) := by
  intro m
  induction m with
  | zero => intro n _ _; simp [runKey]
  | succ m2 ih =>
    intro n hnm hn
    have hstaged : stagedCand (some ⟨v, n⟩) (jsTrim raw) = ⟨jsTrim raw, n + 1⟩ := by
      simp [stagedCand, hraw]
    have h1 : (⟨st0, some ⟨v, n⟩⟩ : KeyCfg).st ≠ some (jsTrim raw) := by
      rw [hraw]
      exact hst
    by_cases hm2 : m2 = 0
    · subst hm2
      have h2 : T ≤ (stagedCand ((⟨st0, some ⟨v, n⟩⟩ : KeyCfg).cand)
          (jsTrim raw)).count := by
        have : (⟨st0, some ⟨v, n⟩⟩ : KeyCfg).cand = some ⟨v, n⟩ := rfl
        rw [this, hstaged]
        dsimp only
        omega
      have hstep := keyStep_seen_commit T ⟨st0, some ⟨v, n⟩⟩ raw h1 h2
      rw [hraw] at hstep
      rw [List.replicate_succ]
      simp only [runKey, hstep]
      simp [runKey]
    · have h2 : ¬ T ≤ (stagedCand ((⟨st0, some ⟨v, n⟩⟩ : KeyCfg).cand)
          (jsTrim raw)).count := by
        have : (⟨st0, some ⟨v, n⟩⟩ : KeyCfg).cand = some ⟨v, n⟩ := rfl
        rw [this, hstaged]
        dsimp only
        omega
      have hstep := keyStep_seen_stage T ⟨st0, some ⟨v, n⟩⟩ raw h1 h2
      dsimp only at hstep
      rw [hstaged, hraw] at hstep
      rw [List.replicate_succ]
      simp only [runKey, hstep]
      have ihh := ih (n + 1) (by omega) (by omega)
      rw [ihh]
      simp [hm2]

theorem mem_of_mem_changesFor (k : String) (x : String × String)
    (l : List (String × String)) (h : x ∈ changesFor k l) : x ∈ l :=
  List.mem_of_mem_filter h

/-- A committing step writes the committed value and really changes it. -/
theorem keyStep_commit_state (T : Nat) (cfg : KeyCfg) (o : Obs) (v : String)
    (h : (keyStep T cfg o).2 = some v) :
    ((keyStep T cfg o).1).st = some v ∧ cfg.st ≠ some v := by
  cases o with
  | failed => rw [keyStep_failed] at h ⊢; cases h
  | absent => rw [keyStep_absent] at h ⊢; cases h
  | seen raw =>
    by_cases h1 : cfg.st = some (jsTrim raw)
    · rw [keyStep_seen_eq T cfg raw h1] at h
      cases h
    · by_cases h2 : T ≤ (stagedCand cfg.cand (jsTrim raw)).count
      · rw [keyStep_seen_commit T cfg raw h1 h2] at h ⊢
        have hv : jsTrim raw = v := Option.some.inj h
        subst hv
        exact ⟨rfl, h1⟩
      · rw [keyStep_seen_stage T cfg raw h1 h2] at h
        cases h

/-- A non-committing step leaves the committed value alone. -/
theorem keyStep_noncommit_state (T : Nat) (cfg : KeyCfg) (o : Obs)
    (h : (keyStep T cfg o).2 = none) :
    ((keyStep T cfg o).1).st = cfg.st := by
  cases o with
  | failed => rw [keyStep_failed]
  | absent => rw [keyStep_absent]
  | seen raw =>
    by_cases h1 : cfg.st = some (jsTrim raw)
    · rw [keyStep_seen_eq T cfg raw h1]
    · by_cases h2 : T ≤ (stagedCand cfg.cand (jsTrim raw)).count
      · rw [keyStep_seen_commit T cfg raw h1 h2] at h
        cases h
      · rw [keyStep_seen_stage T cfg raw h1 h2]

/-- Membership of an entry in a broadcast patch means the single-key step
for that entry's key committed exactly that value. -/
theorem sent_mem_commit (T : Nat) (st : StateMap) (cand : CandMap)
    (lastOk : Option String) (now : String) (kv : List (String × String))
    (k2 v2 : String) (p : Patch) (hnd : (kv.map Prod.fst).Nodup)
    (hp : (runCycle T st cand lastOk now (some kv)).sent = some p)
    (hm : (k2, v2) ∈ p.changes) :
    (keyStep T ⟨st k2, cand k2⟩ (obsOf k2 (some kv))).2 = some v2 := by
  have hproj := runCycle_proj T st cand lastOk now kv k2 hnd
  have hchg := hproj.2.2.1 p hp
  have hmem2 : (k2, v2) ∈ changesFor k2 p.changes :=
    mem_changesFor_self k2 v2 _ hm
  rw [hchg] at hmem2
  cases hs : (keyStep T ⟨st k2, cand k2⟩ (obsOf k2 (some kv))).2 with
  | none =>
    rw [hs] at hmem2
    simp at hmem2
  | some w =>
    rw [hs] at hmem2
    simp at hmem2
    rw [hmem2]

/-- Every loop iteration keeps already-present state keys present. -/
theorem processEntry_state_defined (T : Nat) (acc : CycleAcc)
    (key raw k : String) (h : ∃ w, acc.state k = some w) :
    ∃ w2, (processEntry T acc key raw).state k = some w2 := by
  obtain ⟨w, hw⟩ := h
  by_cases h1 : acc.state key = some (jsTrim raw)
  · rw [processEntry_eq_case T acc key raw h1]
    exact ⟨w, hw⟩
  · by_cases h2 : T ≤ (stagedCand (acc.cand key) (jsTrim raw)).count
    · rw [processEntry_commit_case T acc key raw h1 h2]
      dsimp only
      by_cases hkk : k = key
      · subst hkk
        exact ⟨jsTrim raw, setk_self _ _ _⟩
      · rw [setk_other _ _ _ _ hkk]
        exact ⟨w, hw⟩
    · rw [processEntry_stage_case T acc key raw h1 h2]
      exact ⟨w, hw⟩

/-- The reconciliation fold keeps already-present state keys present. -/
theorem reconcile_state_defined (T : Nat) (st : StateMap) (cand : CandMap)
    (kv : List (String × String)) (k : String) (h : ∃ w, st k = some w) :
    ∃ w2, (reconcile T st cand kv).state k = some w2 := by
  suffices hgen : ∀ (l : List (String × String)) (acc : CycleAcc),
      (∃ w, acc.state k = some w) →
      ∃ w2, (l.foldl (fun a e => processEntry T a e.1 e.2) acc).state k =
        some w2 by
    exact hgen kv ⟨st, cand, []⟩ h
  intro l
  induction l with
  | nil => exact fun acc ha => ha
  | cons e rest ih =>
    intro acc ha
    exact ih _ (processEntry_state_defined T acc e.1 e.2 k ha)

/-- A key that the decoded mapping does not mention is left untouched by the
reconciliation fold. -/
theorem reconcile_state_frame (T : Nat) (st : StateMap) (cand : CandMap)
    (kv : List (String × String)) (k : String)
    (h : lookupKey kv k = none) :
    (reconcile T st cand kv).state k = st k := by
  have hmem : k ∉ kv.map Prod.fst := (lookupKey_none_iff kv k).mp h
  suffices hgen : ∀ (l : List (String × String)) (acc : CycleAcc),
      k ∉ l.map Prod.fst →
      (l.foldl (fun a e => processEntry T a e.1 e.2) acc).state k =
        acc.state k by
    exact hgen kv ⟨st, cand, []⟩ hmem
  intro l
  induction l with
  | nil => exact fun acc _ => rfl
  | cons e rest ih =>
    intro acc hm
    rw [List.map_cons] at hm
    have hne : k ≠ e.1 := fun heq => hm (by rw [heq]; exact List.mem_cons_self _ _)
    have hrest : k ∉ rest.map Prod.fst := fun hr => hm (List.mem_cons_of_mem _ hr)
    rw [List.foldl_cons]
    rw [ih (processEntry T acc e.1 e.2) hrest]
    exact (processEntry_frame T acc e.1 e.2 k hne).1

theorem runCycle_sent_eq (T : Nat) (st : StateMap) (cand : CandMap)
    (lastOk : Option String) (now : String) (kv : List (String × String)) :
    (runCycle T st cand lastOk now (some kv)).sent =
      (if (reconcile T st cand kv).changes = [] then none
        else some ⟨now, (reconcile T st cand kv).changes⟩) := rfl

theorem overrideHandler_reject (st : StateMap) (cand : CandMap)
    (key value : Option JsVal) (now : String)
    (h : (!(jsTruthy key) || !(jsIsString key)) = true) :
    overrideHandler st cand key value now = ⟨400, st, cand, none, none⟩ := by
  simp [overrideHandler, h]

theorem overrideHandler_accept_eq (st : StateMap) (cand : CandMap)
    (value : Option JsVal) (now : String) (s : String) (hs : s ≠ "")
    (hv : st s = some (coerceValue value)) :
    overrideHandler st cand (some (JsVal.str s)) value now =
      ⟨200, st, cand, none, some (s, coerceValue value)⟩ := by
  have hcond : (!(jsTruthy (some (JsVal.str s))) ||
      !(jsIsString (some (JsVal.str s)))) = false := by
    simp [jsTruthy, jsIsString, hs]
  simp [overrideHandler, hcond, jsKeyString, hv]

theorem overrideHandler_accept_ne (st : StateMap) (cand : CandMap)
    (value : Option JsVal) (now : String) (s : String) (hs : s ≠ "")
    (hv : st s ≠ some (coerceValue value)) :
    overrideHandler st cand (some (JsVal.str s)) value now =
      ⟨200, setk st s (coerceValue value), cand,
        some ⟨now, [(s, coerceValue value)]⟩, some (s, coerceValue value)⟩ := by
  have hcond : (!(jsTruthy (some (JsVal.str s))) ||
      !(jsIsString (some (JsVal.str s)))) = false := by
    simp [jsTruthy, jsIsString, hs]
  simp [overrideHandler, hcond, jsKeyString, hv]

/-- C2: when a decoded observation differs from both the committed value and
the existing candidate value (or no candidate exists), the candidate is
replaced by the freshly staged record with value `observed` and count 1 —
the consecutive count resets — and, the threshold being at least 2, the
cycle ends with that candidate staged, the committed value untouched and
nothing recorded in `changes` for the key, so an oscillating value never
accumulates a count toward the threshold. -/
theorem deviating_observation_resets_candidate (T : Nat) (acc : CycleAcc)
    (key raw : String) (hT : 2 ≤ T)
    (hst : acc.state key ≠ some (jsTrim raw))
    (hcand : ∀ c, acc.cand key = some c → c.value ≠ jsTrim raw) :
    stagedCand (acc.cand key) (jsTrim raw) = ⟨jsTrim raw, 1⟩ ∧
    (processEntry T acc key raw).cand key = some ⟨jsTrim raw, 1⟩ ∧
    (processEntry T acc key raw).state key = acc.state key ∧
    (processEntry T acc key raw).changes = acc.changes := by
  have hstaged : stagedCand (acc.cand key) (jsTrim raw) = ⟨jsTrim raw, 1⟩ := by
    cases hc : acc.cand key with
    | none => rfl
    | some c0 => simp [stagedCand, hcand c0 hc]
  have h2 : ¬ T ≤ (stagedCand (acc.cand key) (jsTrim raw)).count := by
    rw [hstaged]
    dsimp only
    omega
  rw [processEntry_stage_case T acc key raw hst h2]
  refine ⟨hstaged, ?_, rfl, rfl⟩
  dsimp only
  rw [setk_self, hstaged]

theorem deviating_observation_resets_candidate_witness :
    (processEntry 2 ⟨demoSt, demoCand, []⟩ "a" "z").cand "a" =
      some ⟨"z", 1⟩ := by
  have h := deviating_observation_resets_candidate 2 ⟨demoSt, demoCand, []⟩
    "a" "z" (by omega) (by decide) (by intro c hc; simp [demoCand] at hc)
  rw [h.2.1]
  decide

/-- C3: an observation equal to the key's committed value deletes any
candidate for the key, commits nothing and contributes no entry to the
broadcast patch; and repeating the already-committed value for the key over
arbitrarily many cycles keeps the committed value, clears the candidate
(whatever count it had, e.g. T-1) and never commits for that key. -/
theorem committed_value_observation_inert (T : Nat) (st : StateMap)
    (cand : CandMap) (lastOk : Option String) (now : String)
    (kv : List (String × String)) (k raw v : String)
    (hnd : (kv.map Prod.fst).Nodup) (hlk : lookupKey kv k = some raw)
    (hraw : jsTrim raw = v) (hst : st k = some v) :
    (runCycle T st cand lastOk now (some kv)).state k = some v ∧
    (runCycle T st cand lastOk now (some kv)).cand k = none ∧
    (∀ p, (runCycle T st cand lastOk now (some kv)).sent = some p →
      lookupKey p.changes k = none) ∧
    (∀ (n : Nat) (c0 : Option Cand),
      runKey T ⟨some v, c0⟩ (List.replicate n (Obs.seen raw)) =
        (⟨some v, if n = 0 then c0 else none⟩, [])) := by
  have hobs : obsOf k (some kv) = Obs.seen raw := by simp [obsOf, hlk]
  have h1 : (⟨st k, cand k⟩ : KeyCfg).st = some (jsTrim raw) := by
    dsimp only
    rw [hraw, hst]
  have hstep : keyStep T ⟨st k, cand k⟩ (obsOf k (some kv)) =
      ((⟨st k, none⟩ : KeyCfg), none) := by
    rw [hobs]
    exact keyStep_seen_eq T ⟨st k, cand k⟩ raw h1
  have hproj := runCycle_proj T st cand lastOk now kv k hnd
  refine ⟨?_, ?_, ?_, runKey_noop T v raw hraw⟩
  · rw [hproj.1, hstep]
    exact hst
  · rw [hproj.2.1, hstep]
  · intro p hp
    have hchg := hproj.2.2.1 p hp
    rw [hstep] at hchg
    simp at hchg
    exact lookupKey_eq_none_of_changesFor k p.changes hchg

theorem committed_value_observation_inert_witness :
    (runCycle 2 demoSt demoCand none "t" (some [("a", "x")])).state "a" =
      some "x" ∧
    runKey 2 ⟨some "x", some ⟨"q", 1⟩⟩ (List.replicate 3 (Obs.seen "x")) =
      (⟨some "x", none⟩, []) := by
  have h := committed_value_observation_inert 2 demoSt demoCand none "t"
    [("a", "x")] "a" "x" "x" (by decide) (by decide) (by decide) (by decide)
  refine ⟨h.1, ?_⟩
  have h4 := h.2.2.2 3 (some ⟨"q", 1⟩)
  rw [h4]
  decide

/-- C4: a failed upstream fetch (the fetch threw or the response status was
not ok) makes the cycle a no-op: the state mapping, the candidate mapping
with every count, and lastFetchOkAt are all unchanged and nothing is
broadcast; in particular a candidate at any count, e.g. T-1, keeps exactly
that count for the next successful cycle. -/
theorem failed_fetch_cycle_is_noop (T : Nat) (st : StateMap) (cand : CandMap)
    (lastOk : Option String) (now : String) (k vc : String) (n : Nat)
    (h : cand k = some ⟨vc, n⟩) :
    runCycle T st cand lastOk now none =
      ⟨st, cand, lastOk, none⟩ ∧
    (runCycle T st cand lastOk now none).cand k = some ⟨vc, n⟩ :=
  ⟨rfl, h⟩

theorem failed_fetch_cycle_is_noop_witness :
    (runCycle 2 demoSt demoCand none "t" none).cand "b" = some ⟨"y", 1⟩ :=
  (failed_fetch_cycle_is_noop 2 demoSt demoCand none "t" "b" "y" 1
    (by decide)).2

/-- C5 (amended): poll-cycle reconciliation — successful or failed —
preserves the invariant that a key's candidate entry never stages the key's
committed value (equality always resolves to candidate deletion).  The
override endpoint, which never touches the candidate mapping, does not
preserve it; see the counterexample. -/
theorem poll_cycle_preserves_candidate_invariant (T : Nat) (st : StateMap)
    (cand : CandMap) (lastOk : Option String) (now : String)
    (fetched : Option (List (String × String)))
    (h : stateCandInv st cand) :
    stateCandInv (runCycle T st cand lastOk now fetched).state
      (runCycle T st cand lastOk now fetched).cand := by
  cases fetched with
  | none => exact h
  | some kv => exact reconcile_inv T st cand kv h

theorem poll_cycle_preserves_candidate_invariant_witness :
    stateCandInv
      (runCycle 2 emptySt emptyCand none "t" (some [("a", "x")])).state
      (runCycle 2 emptySt emptyCand none "t" (some [("a", "x")])).cand :=
  poll_cycle_preserves_candidate_invariant 2 emptySt emptyCand none "t"
    (some [("a", "x")]) (fun k c hc => by simp [emptyCand] at hc)

/-- C5 counterexample: the invariant is not preserved by every operation —
after one cycle stages candidate a=x (count 1, below T = 2), committing a=x
through the override endpoint leaves the candidate entry staging exactly the
value now committed for the key, because the handler never touches the
candidate mapping. -/
theorem override_breaks_candidate_invariant :
    ¬ stateCandInv overrideAfterStage.state overrideAfterStage.cand ∧
    overrideAfterStage.cand "a" = some ⟨"x", 1⟩ ∧
    overrideAfterStage.state "a" = some "x" := by
  have hc : overrideAfterStage.cand "a" = some ⟨"x", 1⟩ := by decide
  have hs : overrideAfterStage.state "a" = some "x" := by decide
  exact ⟨fun hinv => hinv "a" ⟨"x", 1⟩ hc hs, hc, hs⟩

/-- C6 counterexample: a request body whose key is the empty string — a
value that is present and of string type — is rejected with 400 and mutates
nothing, because the handler tests JavaScript truthiness of the key before
its type, so the claimed equivalence (400 exactly for a missing or
non-string key) fails. -/
theorem override_rejects_empty_string_key :
    jsIsString (some (JsVal.str "")) = true ∧
    (some (JsVal.str "") : Option JsVal) ≠ none ∧
    (overrideHandler emptySt emptyCand (some (JsVal.str ""))
      (some (JsVal.str "v")) "t").status = 400 ∧
    (overrideHandler emptySt emptyCand (some (JsVal.str ""))
      (some (JsVal.str "v")) "t").state "" = none ∧
    (overrideHandler emptySt emptyCand (some (JsVal.str ""))
      (some (JsVal.str "v")) "t").sent = none := by
  refine ⟨rfl, by decide, rfl, rfl, rfl⟩

/-- C6 (amended): POST /override returns 400 exactly when the request key is
missing, not a string, or the empty string (the one falsy string); a 400
response mutates nothing and broadcasts nothing; for every body whose key is
a non-empty string the handler commits the coerced value directly, bypassing
the stability tracker, and responds with the key and stored value. -/
theorem override_400_characterization (st : StateMap) (cand : CandMap)
    (key value : Option JsVal) (now : String) :
    ((overrideHandler st cand key value now).status = 400 ↔
      ∀ s, key = some (JsVal.str s) → s = "") ∧
    ((overrideHandler st cand key value now).status = 400 →
      (overrideHandler st cand key value now).state = st ∧
      (overrideHandler st cand key value now).cand = cand ∧
      (overrideHandler st cand key value now).sent = none ∧
      (overrideHandler st cand key value now).resp = none) ∧
    (∀ s, key = some (JsVal.str s) → s ≠ "" →
      (overrideHandler st cand key value now).status = 200 ∧
      (overrideHandler st cand key value now).resp =
        some (s, coerceValue value) ∧
      (overrideHandler st cand key value now).state s =
        some (coerceValue value)) := by
  by_cases hacc : ∃ s, key = some (JsVal.str s) ∧ s ≠ ""
  · obtain ⟨s, hkey, hs⟩ := hacc
    subst hkey
    by_cases hv : st s = some (coerceValue value)
    · rw [overrideHandler_accept_eq st cand value now s hs hv]
      refine ⟨?_, ?_, ?_⟩
      · constructor
        · intro h400
          cases h400
        · intro hall
          exact absurd (hall s rfl) hs
      · intro h400
        cases h400
      · intro s2 hs2 _
        have hss : s = s2 := by
          simpa using hs2
        subst hss
        exact ⟨rfl, rfl, hv⟩
    · rw [overrideHandler_accept_ne st cand value now s hs hv]
      refine ⟨?_, ?_, ?_⟩
      · constructor
        · intro h400
          cases h400
        · intro hall
          exact absurd (hall s rfl) hs
      · intro h400
        cases h400
      · intro s2 hs2 _
        have hss : s = s2 := by
          simpa using hs2
        subst hss
        exact ⟨rfl, rfl, setk_self _ _ _⟩
  · have hcond : (!(jsTruthy key) || !(jsIsString key)) = true := by
      cases key with
      | none => rfl
      | some jv =>
        cases jv with
        | str s =>
          have hs : s = "" := by
            by_contra hne
            exact hacc ⟨s, rfl, hne⟩
          subst hs
          rfl
        | num n => simp [jsTruthy, jsIsString]
        | jsBool b => simp [jsTruthy, jsIsString]
        | null => rfl
    rw [overrideHandler_reject st cand key value now hcond]
    refine ⟨?_, fun _ => ⟨rfl, rfl, rfl, rfl⟩, ?_⟩
    · constructor
      · intro _ s hkey
        by_contra hne
        exact hacc ⟨s, hkey, hne⟩
      · intro _
        rfl
    · intro s hkey hne
      exact absurd ⟨s, hkey, hne⟩ hacc

theorem override_400_characterization_witness :
    (overrideHandler demoSt demoCand (some (JsVal.str "a"))
      (some (JsVal.str "y")) "t").status = 200 :=
  ((override_400_characterization demoSt demoCand (some (JsVal.str "a"))
    (some (JsVal.str "y")) "t").2.2 "a" rfl (by decide)).1

/-- C7: committed state keys are never deleted — not by a successful cycle
whatever it decodes, not by a failed cycle, not by commitChange, not by the
override endpoint — and a successful cycle whose decoded mapping does not
contain the key leaves the key's committed value unchanged. -/
theorem state_keys_never_deleted (T : Nat) (st : StateMap) (cand : CandMap)
    (lastOk : Option String) (now : String)
    (kvA kvB : List (String × String)) (ck cv : String)
    (jkey jval : Option JsVal) (k w : String)
    (h : st k = some w) (h2 : lookupKey kvB k = none) :
    (∃ w2, (runCycle T st cand lastOk now (some kvA)).state k = some w2) ∧
    ((runCycle T st cand lastOk now (some kvB)).state k = st k) ∧
    ((runCycle T st cand lastOk now none).state k = some w) ∧
    (∃ w2, (commitChange st ck cv).1 k = some w2) ∧
    (∃ w2, (overrideHandler st cand jkey jval now).state k = some w2) := by
  refine ⟨?_, ?_, h, ?_, ?_⟩
  · exact reconcile_state_defined T st cand kvA k ⟨w, h⟩
  · exact reconcile_state_frame T st cand kvB k h2
  · unfold commitChange
    split
    · exact ⟨w, h⟩
    · dsimp only
      by_cases hk : k = ck
      · subst hk
        exact ⟨cv, setk_self _ _ _⟩
      · rw [setk_other _ _ _ _ hk]
        exact ⟨w, h⟩
  · by_cases hacc : ∃ s, jkey = some (JsVal.str s) ∧ s ≠ ""
    · obtain ⟨s, hkey, hs⟩ := hacc
      subst hkey
      by_cases hv : st s = some (coerceValue jval)
      · rw [overrideHandler_accept_eq st cand jval now s hs hv]
        exact ⟨w, h⟩
      · rw [overrideHandler_accept_ne st cand jval now s hs hv]
        dsimp only
        by_cases hk : k = s
        · subst hk
          exact ⟨coerceValue jval, setk_self _ _ _⟩
        · rw [setk_other _ _ _ _ hk]
          exact ⟨w, h⟩
    · have hcond : (!(jsTruthy jkey) || !(jsIsString jkey)) = true := by
        cases jkey with
        | none => rfl
        | some jv2 =>
          cases jv2 with
          | str s =>
            have hs : s = "" := by
              by_contra hne
              exact hacc ⟨s, rfl, hne⟩
            subst hs
            rfl
          | num n => simp [jsTruthy, jsIsString]
          | jsBool b => simp [jsTruthy, jsIsString]
          | null => rfl
      rw [overrideHandler_reject st cand jkey jval now hcond]
      exact ⟨w, h⟩

theorem state_keys_never_deleted_witness :
    (runCycle 2 demoSt demoCand none "t" (some [("b", "q")])).state "a" =
      demoSt "a" := by
  have h := state_keys_never_deleted 2 demoSt demoCand none "t"
    [("a", "z")] [("b", "q")] "c" "w" (some (JsVal.str "a"))
    (some (JsVal.str "y")) "a" "x" (by decide) (by decide)
  exact h.2.1

/-- C8: in a successful poll cycle, a patch is broadcast exactly when some
key's committed value actually changed this cycle, and the patch's changes
mapping holds exactly the committed keys: every entry records the key's new
committed value, which differs from the value committed before the cycle,
and a key with no entry is committed unchanged. -/
theorem patch_broadcast_iff_commits (T : Nat) (st : StateMap)
    (cand : CandMap) (lastOk : Option String) (now : String)
    (kv : List (String × String)) (hnd : (kv.map Prod.fst).Nodup) :
    ((runCycle T st cand lastOk now (some kv)).sent = none ↔
      ∀ k2, (runCycle T st cand lastOk now (some kv)).state k2 = st k2) ∧
    (∀ p, (runCycle T st cand lastOk now (some kv)).sent = some p →
      (∀ k2 v2, (k2, v2) ∈ p.changes →
        (runCycle T st cand lastOk now (some kv)).state k2 = some v2 ∧
        st k2 ≠ some v2) ∧
      (∀ k2, (∀ v2, (k2, v2) ∉ p.changes) →
        (runCycle T st cand lastOk now (some kv)).state k2 = st k2)) := by
  have hmain : ∀ p, (runCycle T st cand lastOk now (some kv)).sent = some p →
      (∀ k2 v2, (k2, v2) ∈ p.changes →
        (runCycle T st cand lastOk now (some kv)).state k2 = some v2 ∧
        st k2 ≠ some v2) ∧
      (∀ k2, (∀ v2, (k2, v2) ∉ p.changes) →
        (runCycle T st cand lastOk now (some kv)).state k2 = st k2) := by
    intro p hp
    constructor
    · intro k2 v2 hm
      have hcommit := sent_mem_commit T st cand lastOk now kv k2 v2 p hnd hp hm
      have hproj := runCycle_proj T st cand lastOk now kv k2 hnd
      have hstate := keyStep_commit_state T ⟨st k2, cand k2⟩
        (obsOf k2 (some kv)) v2 hcommit
      refine ⟨?_, hstate.2⟩
      rw [hproj.1]
      exact hstate.1
    · intro k2 hnot
      have hproj := runCycle_proj T st cand lastOk now kv k2 hnd
      cases hs2 : (keyStep T ⟨st k2, cand k2⟩ (obsOf k2 (some kv))).2 with
      | none =>
        rw [hproj.1]
        exact keyStep_noncommit_state T ⟨st k2, cand k2⟩
          (obsOf k2 (some kv)) hs2
      | some w =>
        exfalso
        have hchg := hproj.2.2.1 p hp
        rw [hs2] at hchg
        have hmemf : (k2, w) ∈ changesFor k2 p.changes := by
          rw [hchg]
          simp
        exact hnot w (mem_of_mem_changesFor k2 (k2, w) p.changes hmemf)
  refine ⟨⟨?_, ?_⟩, hmain⟩
  · intro hnone k2
    have hproj := runCycle_proj T st cand lastOk now kv k2 hnd
    have hs2 := hproj.2.2.2 hnone
    rw [hproj.1]
    exact keyStep_noncommit_state T ⟨st k2, cand k2⟩ (obsOf k2 (some kv)) hs2
  · intro hall
    rw [runCycle_sent_eq]
    by_cases hc : (reconcile T st cand kv).changes = []
    · rw [if_pos hc]
    · exfalso
      have hpsent : (runCycle T st cand lastOk now (some kv)).sent =
          some ⟨now, (reconcile T st cand kv).changes⟩ := by
        rw [runCycle_sent_eq, if_neg hc]
      obtain ⟨e, he⟩ := List.exists_mem_of_ne_nil _ hc
      have hm : (e.1, e.2) ∈
          (⟨now, (reconcile T st cand kv).changes⟩ : Patch).changes := by
        simpa using he
      have hfacts := (hmain _ hpsent).1 e.1 e.2 hm
      have hne : (runCycle T st cand lastOk now (some kv)).state e.1 ≠
          st e.1 := by
        rw [hfacts.1]
        exact fun heq => hfacts.2 heq.symm
      exact hne (hall e.1)

theorem patch_broadcast_iff_commits_witness :
    (runCycle 1 emptySt emptyCand none "t" (some [("a", "x")])).state "a" =
      some "x" := by
  have h := patch_broadcast_iff_commits 1 emptySt emptyCand none "t"
    [("a", "x")] (by decide)
  exact ((h.2 ⟨"t", [("a", "x")]⟩ (by decide)).1 "a" "x" (by decide)).1

/-- C10: for every accepted override request (key a non-empty string), the
value field is coerced to a string — absence and null become the empty
string — the candidate mapping is untouched, the response carries the
stored value; an override equal to the committed value changes nothing and
broadcasts nothing, a differing override sets exactly that key and
broadcasts one patch containing only that key. -/
theorem override_commit_semantics (st : StateMap) (cand : CandMap)
    (value : Option JsVal) (now : String) (s : String) (hs : s ≠ "") :
    coerceValue none = "" ∧ coerceValue (some JsVal.null) = "" ∧
    (overrideHandler st cand (some (JsVal.str s)) value now).status = 200 ∧
    (overrideHandler st cand (some (JsVal.str s)) value now).resp =
      some (s, coerceValue value) ∧
    (overrideHandler st cand (some (JsVal.str s)) value now).state s =
      some (coerceValue value) ∧
    (overrideHandler st cand (some (JsVal.str s)) value now).cand = cand ∧
    (st s = some (coerceValue value) →
      (overrideHandler st cand (some (JsVal.str s)) value now).state = st ∧
      (overrideHandler st cand (some (JsVal.str s)) value now).sent = none) ∧
    (st s ≠ some (coerceValue value) →
      (∀ k2, k2 ≠ s →
        (overrideHandler st cand (some (JsVal.str s)) value now).state k2 =
          st k2) ∧
      (overrideHandler st cand (some (JsVal.str s)) value now).sent =
        some ⟨now, [(s, coerceValue value)]⟩) := by
  by_cases hv : st s = some (coerceValue value)
  · rw [overrideHandler_accept_eq st cand value now s hs hv]
    exact ⟨rfl, rfl, rfl, rfl, hv, rfl, fun _ => ⟨rfl, rfl⟩,
      fun hne => absurd hv hne⟩
  · rw [overrideHandler_accept_ne st cand value now s hs hv]
    refine ⟨rfl, rfl, rfl, rfl, setk_self _ _ _, rfl,
      fun heq => absurd heq hv, fun _ => ⟨?_, rfl⟩⟩
    intro k2 hk2
    exact setk_other _ _ _ _ hk2

theorem override_commit_semantics_witness :
    (overrideHandler demoSt demoCand (some (JsVal.str "a"))
      (some (JsVal.str "y")) "t").state "a" = some "y" := by
  have h := override_commit_semantics demoSt demoCand
    (some (JsVal.str "y")) "t" "a" (by decide)
  exact h.2.2.2.2.1

theorem seenVals_append (a b : List Obs) :
    seenVals (a ++ b) = seenVals a ++ seenVals b := by
  simp [seenVals, List.filterMap_append]

/-- C1 counterexample: with T = 2 the loop commits x to a in the third cycle
of the run: cycle 1 decodes a=x, cycle 2 succeeds but decodes an empty
mapping, cycle 3 decodes a=x and commits.  The only cycles decoding x for a
are cycles 1 and 3, so no T consecutive successful poll cycles each decode v
for k, yet the commit happens: a successful cycle that omits the key leaves
the candidate counter untouched rather than interrupting it. -/
theorem commit_despite_gap_in_successful_cycles :
    (runCycle 2
      (runCycles 2 emptySt emptyCand [some [("a", "x")], some []]).1
      (runCycles 2 emptySt emptyCand [some [("a", "x")], some []]).2
      none "t2" (some [("a", "x")])).sent = some ⟨"t2", [("a", "x")]⟩ ∧
    obsOf "a" (some [("a", "x")]) = Obs.seen "x" ∧
    obsOf "a" (some ([] : List (String × String))) = Obs.absent ∧
    (runCycle 2 emptySt emptyCand none "t0" (some [("a", "x")])).sent =
      none ∧
    (runCycle 2
      (runCycles 2 emptySt emptyCand [some [("a", "x")]]).1
      (runCycles 2 emptySt emptyCand [some [("a", "x")]]).2
      none "t1" (some ([] : List (String × String)))).sent = none := by
  decide

/-- C1 (amended): starting from a server with no staged candidates, the poll
loop commits v for k in a cycle only if v differs from the value committed
for k just before that cycle and the sequence of values decoded for k so far
(trimmed, taken across exactly the cycles whose decoded mapping contains k)
ends in T consecutive occurrences of v — the candidate counter reached
T = REQUIRE_STABLE_READS without interruption by any differing observation
of k.  Failed cycles and successful cycles that omit k leave the counter
untouched, so the T decisive decodes need not lie in T consecutive
successful poll cycles. -/
theorem commit_requires_T_consecutive_decodes
    (T : Nat) (hT : 1 ≤ T) (st0 : StateMap)
    (fs : List (Option (List (String × String))))
    (kv : List (String × String)) (lastOk : Option String) (now : String)
    (k v : String) (p : Patch)
    (hnd : ∀ l, some l ∈ fs → (l.map Prod.fst).Nodup)
    (hkv : (kv.map Prod.fst).Nodup)
    (hsent : (runCycle T (runCycles T st0 emptyCand fs).1
        (runCycles T st0 emptyCand fs).2 lastOk now (some kv)).sent = some p)
    (hmem : (k, v) ∈ p.changes) :
    (runCycles T st0 emptyCand fs).1 k ≠ some v ∧
    ∃ pre, seenValsFor k (fs ++ [some kv]) = pre ++ List.replicate T v := by
  have hproj := runCycles_proj T k fs st0 emptyCand hnd
  have hcommit := sent_mem_commit T (runCycles T st0 emptyCand fs).1
    (runCycles T st0 emptyCand fs).2 lastOk now kv k v p hkv hsent hmem
  have hcfg : (⟨(runCycles T st0 emptyCand fs).1 k,
      (runCycles T st0 emptyCand fs).2 k⟩ : KeyCfg) =
      (runKey T ⟨st0 k, emptyCand k⟩ (fs.map (obsOf k))).1 := by
    rw [hproj.1, hproj.2]
  rw [hcfg] at hcommit
  have hct : candTrace T (seenVals (fs.map (obsOf k)))
      ((runKey T ⟨st0 k, emptyCand k⟩ (fs.map (obsOf k))).1).cand := by
    have hrun := runKey_candTrace T (fs.map (obsOf k)) []
      ⟨st0 k, emptyCand k⟩ (candTrace_none T [])
    simpa using hrun
  cases hobs : obsOf k (some kv) with
  | failed =>
    rw [hobs, keyStep_failed] at hcommit
    cases hcommit
  | absent =>
    rw [hobs, keyStep_absent] at hcommit
    cases hcommit
  | seen raw =>
    rw [hobs] at hcommit
    have htr := keyStep_commit_trace T hT (seenVals (fs.map (obsOf k)))
      ((runKey T ⟨st0 k, emptyCand k⟩ (fs.map (obsOf k))).1) raw v hct hcommit
    constructor
    · rw [hproj.1]
      exact htr.1
    · obtain ⟨pre, hpre⟩ := htr.2.2
      refine ⟨pre, ?_⟩
      have hexp : seenValsFor k (fs ++ [some kv]) =
          seenVals (fs.map (obsOf k)) ++ [jsTrim raw] := by
        unfold seenValsFor
        rw [List.map_append, seenVals_append]
        congr 1
        have hmap : List.map (obsOf k) [some kv] = [obsOf k (some kv)] := rfl
        rw [hmap, hobs, jsTrim_idem_nows]
      rw [hexp, hpre]

theorem commit_requires_T_consecutive_decodes_witness :
    (runCycles 2 emptySt emptyCand [some [("a", "x")]]).1 "a" ≠ some "x" ∧
    ∃ pre, seenValsFor "a" ([some [("a", "x")]] ++ [some [("a", "x")]]) =
      pre ++ List.replicate 2 "x" :=
  commit_requires_T_consecutive_decodes 2 (by omega) emptySt
    [some [("a", "x")]] [("a", "x")] none "t" "a" "x" ⟨"t", [("a", "x")]⟩
    (by
      intro l hl
      simp at hl
      subst hl
      decide)
    (by decide) (by decide) (by decide)

/-- C9: for a key absent from the committed state, a decoded observation of
the empty string is treated as divergent, not as a no-op: the step stages or
advances a candidate for the empty string — committing the empty string
when the count reaches the threshold — and T consecutive empty-string
observations starting with no candidate commit the empty string.  An absent
key is never considered equal to the empty string. -/
theorem absent_key_empty_string_divergent (T : Nat) (hT : 1 ≤ T)
    (c0 : Option Cand) (raw : String) (hraw : jsTrim raw = "") :
    keyStep T ⟨none, c0⟩ (Obs.seen raw) =
      (if T ≤ (stagedCand c0 "").count
        then ((⟨some "", none⟩ : KeyCfg), some "")
        else (⟨none, some (stagedCand c0 "")⟩, none)) ∧
    runKey T ⟨none, none⟩ (List.replicate T (Obs.seen "")) =
      (⟨some "", none⟩, [""]) := by
  constructor
  · have h1 : (⟨none, c0⟩ : KeyCfg).st ≠ some (jsTrim raw) := by
      intro hcontra
      exact Option.noConfusion hcontra
    by_cases h2 : T ≤ (stagedCand c0 "").count
    · have h2b : T ≤ (stagedCand ((⟨none, c0⟩ : KeyCfg).cand)
          (jsTrim raw)).count := by
        rw [hraw]
        exact h2
      have hstep := keyStep_seen_commit T ⟨none, c0⟩ raw h1 h2b
      rw [hraw] at hstep
      rw [if_pos h2]
      exact hstep
    · have h2b : ¬ T ≤ (stagedCand ((⟨none, c0⟩ : KeyCfg).cand)
          (jsTrim raw)).count := by
        rw [hraw]
        exact h2
      have hstep := keyStep_seen_stage T ⟨none, c0⟩ raw h1 h2b
      rw [hraw] at hstep
      rw [if_neg h2]
      exact hstep
  · obtain ⟨T2, rfl⟩ : ∃ T2, T = T2 + 1 := ⟨T - 1, by omega⟩
    rw [List.replicate_succ]
    have h1 : (⟨none, (none : Option Cand)⟩ : KeyCfg).st ≠
        some (jsTrim "") := by
      intro hcontra
      exact Option.noConfusion hcontra
    by_cases hT2 : T2 = 0
    · subst hT2
      have h2 : 0 + 1 ≤ (stagedCand ((⟨none, (none : Option Cand)⟩ :
          KeyCfg).cand) (jsTrim "")).count := by
        decide
      have hstep := keyStep_seen_commit (0 + 1) ⟨none, none⟩ "" h1 h2
      have hraw0 : jsTrim "" = "" := rfl
      rw [hraw0] at hstep
      simp only [runKey, hstep]
      simp [runKey]
    · have hc : (stagedCand ((⟨none, (none : Option Cand)⟩ : KeyCfg).cand)
          (jsTrim "")).count = 1 := rfl
      have h2 : ¬ (T2 + 1) ≤ (stagedCand ((⟨none, (none : Option Cand)⟩ :
          KeyCfg).cand) (jsTrim "")).count := by
        rw [hc]
        omega
      have hstep := keyStep_seen_stage (T2 + 1) ⟨none, none⟩ "" h1 h2
      have hraw0 : jsTrim "" = "" := rfl
      rw [hraw0] at hstep
      have hsc : stagedCand ((⟨none, (none : Option Cand)⟩ : KeyCfg).cand)
          "" = ⟨"", 1⟩ := rfl
      rw [hsc] at hstep
      simp only [runKey, hstep]
      have hclimb := runKey_climb (T2 + 1) "" "" rfl none
        (fun hcontra => Option.noConfusion hcontra) T2 1 (by omega) (by omega)
      rw [hclimb, if_neg hT2]
      simp

theorem absent_key_empty_string_divergent_witness :
    runKey 2 ⟨none, none⟩ (List.replicate 2 (Obs.seen "")) =
      (⟨some "", none⟩, [""]) :=
  (absent_key_empty_string_divergent 2 (by omega) none "" rfl).2

end ObsRouter
